import Mathlib

/-!
# go-dupe-finder: a shallow embedding of the scan pipeline

Sources embedded here:

* `hash.go`     : `hashFile`
* `scan_map.go` : `Hash`, `File`, `ScanMap`, `NewScanMap`, `ScanMap.Set`,
                  `ScanMap.Length`, `ScanMap.GetMap`
* `scanner.go`  : `Duplicate`, `Scanner`, `Scanner.Scan`, `Scanner.scanChunk`

Conventions.

* Go `int` and `uint` are `w`-bit machine integers (`w = 64` on the usual
  targets).  They are embedded as `Int` with an explicit two's complement wrap
  (`toInt w`) or an explicit reduction modulo `2 ^ w` (`toUint w`).
* A run-time panic (integer division by zero, slice bounds out of range) is the
  `Except.error` of `Except Panic _`.
* A Go result pair `(value, error)` is a Lean pair whose second component is an
  `Option GoError`; `none` is `nil`.
* The library calls (`crypto/sha1`, `ioutil.ReadDir`, `os.Open`, `filepath.Join`)
  are parameters collected in `Hasher` and `Env`.
* The goroutines share nothing but the `ScanMap`, and `ScanMap.Set` runs under the
  mutex, so a run of the workers is a serial order of their `Set` calls.  The
  choice of that order (`sched`) and the iteration order of `range` over a Go map
  (`rangeOrder`) are explicit parameters of `Scanner.Scan`.
-/

namespace DupeFinder

/-! ## Basic data -/

/-- A Go byte string (`string` or `[]byte` holding arbitrary bytes). -/
abbrev Bytes := List UInt8

/-- `type Hash string` (scan_map.go:7). -/
abbrev Hash := Bytes

/-- `type File string` (scan_map.go:10): a file name relative to the directory. -/
abbrev File := String

/-- Go `error` values that matter to the program: `io.EOF` and anything else. -/
inductive GoError where
  | EOF
  | other (msg : String)
deriving DecidableEq, Repr

/-- Run-time panics the scanned code can raise. -/
inductive Panic where
  | divideByZero
  | sliceBounds
deriving DecidableEq, Repr

/-- Conversion to a `w`-bit signed `int`: two's complement wrap-around. -/
def toInt (w : Nat) (x : Int) : Int :=
  (x + 2 ^ (w - 1)) % 2 ^ w - 2 ^ (w - 1)

/-- Conversion to a `w`-bit `uint`: reduction modulo `2 ^ w`. -/
def toUint (w : Nat) (x : Int) : Int :=
  x % 2 ^ w

/-- The slice expression `s[lo:hi]`.  Go panics unless `0 ≤ lo ≤ hi ≤ cap(s)`;
the bound used here is `len(s)`, which is at most `cap(s)`. -/
def slice {α : Type} (s : List α) (lo hi : Int) : Except Panic (List α) :=
  if 0 ≤ lo ∧ lo ≤ hi ∧ hi ≤ (s.length : Int) then
    .ok ((s.drop lo.toNat).take (hi.toNat - lo.toNat))
  else
    .error .sliceBounds

/-! ## scan_map.go -/

/-- A Go `map[Hash][]File`, kept as a list of entries.  The operations below
never create two entries with the same key. -/
abbrev GoMap := List (Hash × List File)

/-- The map read `m[k]` with its `found` flag: `none` when `k` is absent. -/
def GoMap.get : GoMap → Hash → Option (List File)
  | [], _ => none
  | (k', v) :: rest, k => if k' = k then some v else GoMap.get rest k

/-- The map write `m[k] = v`: replaces the value of an existing key, adds a new
entry otherwise. -/
def GoMap.put : GoMap → Hash → List File → GoMap
  | [], k, v => [(k, v)]
  | (k', v') :: rest, k, v =>
    if k' = k then (k, v) :: rest else (k', v') :: GoMap.put rest k v

/-- The keys of a map. -/
def GoMap.keys (m : GoMap) : List Hash := m.map Prod.fst

/-- `type ScanMap struct` (scan_map.go:15).  The mutex only serialises the calls
and carries no data. -/
structure ScanMap where
  hashMap : GoMap
deriving DecidableEq, Repr

/-- `NewScanMap` (scan_map.go:22). -/
def NewScanMap : ScanMap :=
  { hashMap := [] }

/-- `ScanMap.Set` (scan_map.go:31): the map after the call and the returned
error. -/
def ScanMap.Set (sm : ScanMap) (hash : Hash) (file : File) : ScanMap × Option GoError :=
  -- if _, found := sm.hashMap[hash]; !found { sm.hashMap[hash] = []File{} }
  let m1 : GoMap :=
    match sm.hashMap.get hash with
    | none => sm.hashMap.put hash []
    | some _ => sm.hashMap
  -- sm.hashMap[hash] = append(sm.hashMap[hash], file)
  let m2 : GoMap := m1.put hash ((m1.get hash).getD [] ++ [file])
  -- return nil
  ({ hashMap := m2 }, none)

/-- `ScanMap.Length` (scan_map.go:55). -/
def ScanMap.Length (sm : ScanMap) : Int :=
  (sm.hashMap.length : Int)

/-- `ScanMap.GetMap` (scan_map.go:60). -/
def ScanMap.GetMap (sm : ScanMap) : GoMap :=
  sm.hashMap

/-- The map reached from `sm` by a serial sequence of `Set` calls. -/
def ScanMap.applyCalls (sm : ScanMap) (calls : List (Hash × File)) : ScanMap :=
  calls.foldl (fun m c => (m.Set c.1 c.2).1) sm

/-- The files a sequence of `Set` calls records under the digest `h`, in call
order. -/
def filesOf (calls : List (Hash × File)) (h : Hash) : List File :=
  (calls.filter (fun c => c.1 = h)).map Prod.snd

/-! ## hash.go -/

/-- `buf := make([]byte, 10*1024)` (hash.go:17): the length of the read buffer. -/
def bufSize : Nat := 10 * 1024

/-- The result of one call `file.Read(buf)` with the buffer of `hashFile`:
`data` is `buf[:numBytes]` after the call and `err` the returned error.  A
reader stores at most `len(buf)` bytes (`fits`). -/
structure ReadResult where
  data : Bytes
  err : Option GoError
  fits : data.length ≤ bufSize

/-- An open file as `hashFile` sees it: the results of its successive `Read`
calls.  Once they are used up the file is at its end and `Read` gives
`0, io.EOF`. -/
abbrev Reader := List ReadResult

/-- A streaming hash (`hash.Hash`, here `crypto/sha1`): `New` is `sha1.New()`,
`Write` gives the state after `hash.Write(p)` and the error it returns, and
`Sum` is `string(hash.Sum(nil))`. -/
structure Hasher where
  State : Type
  New : State
  Write : State → Bytes → State × Option GoError
  Sum : State → Bytes

/-- What the statements about `hashFile` assume of the hash: `Write` never returns an
error (the contract of `hash.Hash`), and writing `a` then `b` leaves the state
that writing `a ++ b` leaves. -/
structure Hasher.Lawful (H : Hasher) : Prop where
  write_ok : ∀ (s : H.State) (p : Bytes), (H.Write s p).2 = none
  write_append : ∀ (s : H.State) (a b : Bytes),
    (H.Write (H.Write s a).1 b).1 = (H.Write s (a ++ b)).1

/-- The hash state after the bytes `p` went in from state `h` in one piece; as in
`hashFile`, nothing is written when there are no bytes. -/
def Hasher.feed (H : Hasher) (h : H.State) (p : Bytes) : H.State :=
  if 0 < p.length then (H.Write h p).1 else h

/-- The digest of a content hashed in one piece. -/
def Hasher.digest (H : Hasher) (content : Bytes) : Bytes :=
  H.Sum (H.feed H.New content)

/-- `hashFile`'s `for` loop (hash.go:18-43) from hash state `h` on. -/
def hashLoop (H : Hasher) : Reader → H.State → Bytes × Option GoError
  | [], h =>
    -- numBytes = 0, err = io.EOF: leave the loop and return the sum
    (H.Sum h, none)
  | r :: rest, h =>
    -- if numBytes > 0 { _, err := hash.Write(buf[:numBytes]) ... }
    let written : H.State × Option GoError :=
      if 0 < r.data.length then H.Write h r.data else (h, none)
    match written.2 with
    | some werr => ([], some werr)
    | none =>
      match r.err with
      | some .EOF => (H.Sum written.1, none)
      | some e => ([], some e)
      | none => hashLoop H rest written.1

/-- `hashFile` (hash.go:11): the returned string and error. -/
def hashFile (H : Hasher) (file : Reader) : Bytes × Option GoError :=
  hashLoop H file H.New

/-! ## scanner.go -/

/-- The part of `os.FileInfo` the scanner reads: `Name()` and `IsDir()`. -/
structure FileInfo where
  Name : String
  IsDir : Bool
deriving DecidableEq, Repr

/-- `type Duplicate struct` (scanner.go:12). -/
structure Duplicate where
  Files : List File
deriving DecidableEq, Repr

/-- `type Scanner struct` (scanner.go:17).  `maxThreads` is a Go `uint`: a
natural number below `2 ^ w`. -/
structure Scanner where
  directoryPath : String
  maxThreads : Nat
deriving DecidableEq, Repr

/-- What the scanner takes from outside the repository: the width of `int` and
`uint`, the hash (`crypto/sha1`), `ioutil.ReadDir`, `filepath.Join` and
`os.Open`. -/
structure Env where
  intSize : Nat
  hasher : Hasher
  ReadDir : String → Except GoError (List FileInfo)
  Join : String → String → String
  Open : String → Except GoError Reader

/-- `Scanner.scanChunk` (scanner.go:123).  Its effect on the shared state is the
sequence of `scanMap.Set(hash, name)` calls it makes, which is what is
returned; the diagnostics printed on the way are not part of the embedding. -/
def Scanner.scanChunk (env : Env) (s : Scanner) : List FileInfo → List (Hash × File)
  | [] => []
  | file :: rest =>
    if file.IsDir then
      -- Ignore directories.
      Scanner.scanChunk env s rest
    else
      let path := env.Join s.directoryPath file.Name
      match env.Open path with
      | .error _ =>
        -- error: couldn't open file; continue
        Scanner.scanChunk env s rest
      | .ok f =>
        match hashFile env.hasher f with
        | (_, some _) =>
          -- error: couldn't hash file; continue
          Scanner.scanChunk env s rest
        | (hash, none) =>
          (hash, file.Name) :: Scanner.scanChunk env s rest

/-- What can happen to one entry of a chunk in `scanChunk`. -/
inductive Outcome where
  | isDirectory
  | openFails
  | digestFails
  | digest (d : Hash)
deriving DecidableEq, Repr

/-- The entry `file` of the scanned directory meets the outcome `o`. -/
def Realises (env : Env) (s : Scanner) (file : FileInfo) : Outcome → Prop
  | .isDirectory => file.IsDir = true
  | .openFails =>
    file.IsDir = false ∧ ∃ e, env.Open (env.Join s.directoryPath file.Name) = .error e
  | .digestFails =>
    file.IsDir = false ∧ ∃ f e, env.Open (env.Join s.directoryPath file.Name) = .ok f ∧
      (hashFile env.hasher f).2 = some e
  | .digest d =>
    file.IsDir = false ∧ ∃ f, env.Open (env.Join s.directoryPath file.Name) = .ok f ∧
      hashFile env.hasher f = (d, none)

/-- The `Set` calls owed to a chunk whose entries meet the given outcomes: one
call `(d, name)` for each entry that was digested, in chunk order. -/
def recorded : List (FileInfo × Outcome) → List (Hash × File)
  | [] => []
  | (file, .digest d) :: rest => (d, file.Name) :: recorded rest
  | (_, _) :: rest => recorded rest

/-- Scanner.go:60-65: `numGoroutines`, a `uint`, after the clamp
`if len(files) < int(s.maxThreads) { numGoroutines = uint(len(files)) }`. -/
def numGoroutines (w : Nat) (numFiles : Int) (maxThreads : Int) : Int :=
  if numFiles < toInt w maxThreads then toUint w numFiles else maxThreads

/-- Scanner.go:68: `chunkSize := numFiles / int(numGoroutines)`; Go's integer
division truncates toward zero. -/
def chunkSize (w : Nat) (numFiles : Int) (ng : Int) : Int :=
  toInt w (Int.tdiv numFiles (toInt w ng))

/-- Scanner.go:77-87: `start` and `end` of iteration `i`. -/
def chunkBounds (w : Nat) (numFiles ng cs i : Int) : Int × Int :=
  let start := toInt w (i * cs)
  let end1 := toInt w (start + cs)
  if i = toInt w (toUint w (ng - 1)) then (start, numFiles) else (start, end1)

/-- The bounds `(start, end)` of the slice `files[start:end]` that iteration `i`
of the loop in `Scan` takes, for `numFiles` listed files and the configured
`maxThreads`. -/
def loopBounds (w : Nat) (numFiles maxThreads i : Int) : Int × Int :=
  chunkBounds w numFiles (numGoroutines w numFiles maxThreads)
    (chunkSize w numFiles (numGoroutines w numFiles maxThreads)) i

/-- Scanner.go:70-94: the iterations of the `for` loop from `i` on, `k` of them
left; the result lists the chunks handed to `go s.scanChunk`, in loop order. -/
def spawnLoop {α : Type} (w : Nat) (files : List α) (ng cs : Int) :
    Nat → Int → Except Panic (List (List α))
  | 0, _ => .ok []
  | k + 1, i =>
    let b := chunkBounds w (files.length : Int) ng cs i
    match slice files b.1 b.2 with
    | .error p => .error p
    | .ok chunk =>
      match spawnLoop w files ng cs k (toInt w (i + 1)) with
      | .error p => .error p
      | .ok rest => .ok (chunk :: rest)

/-- Scanner.go:58-94 for a non-empty listing: the chunks of `files` handed to the
workers.  The loop `for i := 0; i < int(numGoroutines); i++` makes
`int(numGoroutines)` iterations, none when that number is negative. -/
def partitionFiles {α : Type} (w : Nat) (files : List α) (maxThreads : Nat) :
    Except Panic (List (List α)) :=
  let numFiles : Int := (files.length : Int)
  let ng := numGoroutines w numFiles (maxThreads : Int)
  if toInt w ng = 0 then
    .error .divideByZero
  else
    spawnLoop w files ng (chunkSize w numFiles ng) (toInt w ng).toNat 0

/-- A serial order of the workers' calls.  `ws` holds what each worker has still
to do; each step of the schedule names the worker whose next call takes effect
(a step naming a worker with nothing left is void).  When the schedule is used
up the workers finish one after the other. -/
def interleave {α : Type} : List Nat → List (List α) → List α
  | [], ws => ws.flatten
  | k :: sched, ws =>
    match ws.get? k with
    | some (c :: rest) => c :: interleave sched (ws.set k rest)
    | _ => interleave sched ws

/-- A serial order of the workers' calls as a relation: `l` is reached by taking,
step by step, the next call of some worker that has one left, until no worker has
any. -/
inductive SerialOrder {α : Type} : List (List α) → List α → Prop where
  | done (ws : List (List α)) (h : ∀ w ∈ ws, w = []) : SerialOrder ws []
  | step (ws : List (List α)) (k : Nat) (c : α) (rest l : List α)
      (h : ws.get? k = some (c :: rest)) (t : SerialOrder (ws.set k rest) l) :
      SerialOrder ws (c :: l)

/-- Scanner.go:104-117: the body of `for _, files := range sm`, run over the
entries in the order `range` yields them, appending to `duplicates`. -/
def reduceLoop : List (Hash × List File) → List Duplicate → List Duplicate
  | [], duplicates => duplicates
  | (_, files) :: rest, duplicates =>
    if (files.length : Int) ≤ 1 then
      reduceLoop rest duplicates
    else
      reduceLoop rest (duplicates ++ [{ Files := files }])

/-- The groups the reduction makes out of a sequence of map entries. -/
def groupsOf (entries : List (Hash × List File)) : List Duplicate :=
  (entries.filter (fun e => decide (2 ≤ e.2.length))).map (fun e => Duplicate.mk e.2)

/-- Two results of the reduction that agree up to the order of the groups and the
order of the files inside a group. -/
def SameGroups (a b : List Duplicate) : Prop :=
  ∃ c : List Duplicate, a.Perm c ∧ List.Forall₂ (fun g g2 => g.Files.Perm g2.Files) c b

/-- An iteration order of `range` over a map: every entry once, in any order. -/
def IsRangeOrder (rangeOrder : GoMap → List (Hash × List File)) : Prop :=
  ∀ m : GoMap, (rangeOrder m).Perm m

/-- What one call of `Scanner.Scan` did: the two returned values (`duplicates`,
`err`) and, for the statements about them, the chunks handed to the workers, the
serial order of the `Set` calls and the final state of the shared map. -/
structure ScanRun where
  launched : List (List FileInfo)
  calls : List (Hash × File)
  scanMap : ScanMap
  duplicates : List Duplicate
  err : Option GoError

/-- `Scanner.Scan` (scanner.go:35). -/
def Scanner.Scan (env : Env) (s : Scanner) (sched : List Nat)
    (rangeOrder : GoMap → List (Hash × List File)) : Except Panic ScanRun :=
  let scanMap := NewScanMap
  match env.ReadDir s.directoryPath with
  | .error err =>
    -- return nil, err
    .ok { launched := [], calls := [], scanMap := scanMap, duplicates := [], err := some err }
  | .ok files =>
    let numFiles : Int := (files.length : Int)
    if numFiles ≤ 0 then
      -- return []Duplicate{}, nil
      .ok { launched := [], calls := [], scanMap := scanMap, duplicates := [], err := none }
    else
      match partitionFiles env.intSize files s.maxThreads with
      | .error p => .error p
      | .ok chunks =>
        -- the workers run; wg.Wait() returns when all of them are done
        let calls := interleave sched (chunks.map (Scanner.scanChunk env s))
        let final := scanMap.applyCalls calls
        -- the reduction over sm := scanMap.GetMap()
        let duplicates := reduceLoop (rangeOrder final.GetMap) []
        .ok { launched := chunks, calls := calls, scanMap := final,
              duplicates := duplicates, err := none }

/-! ## A concrete directory for the worked examples -/

/-- A streaming hash for concrete runs: the state is the bytes written so far and
the digest is the content itself. -/
def concatHasher : Hasher :=
  { State := Bytes
    New := []
    Write := fun s p => (s ++ p, none)
    Sum := fun s => s }

/-- The bytes of "hello". -/
def helloBytes : Bytes := [104, 101, 108, 108, 111]

/-- The bytes of "world". -/
def worldBytes : Bytes := [119, 111, 114, 108, 100]

/-- "hello" delivered by one `Read`, end-of-stream by the next. -/
def helloWhole : Reader :=
  [{ data := helloBytes, err := none, fits := by decide },
   { data := [], err := some .EOF, fits := by decide }]

/-- "hello" delivered as "he" and then "llo" together with end-of-stream. -/
def helloSplit : Reader :=
  [{ data := [104, 101], err := none, fits := by decide },
   { data := [108, 108, 111], err := some .EOF, fits := by decide }]

/-- "world" delivered by one `Read` together with end-of-stream. -/
def worldWhole : Reader :=
  [{ data := worldBytes, err := some .EOF, fits := by decide }]

/-- A file whose second `Read` fails. -/
def brokenReader : Reader :=
  [{ data := [104, 101], err := none, fits := by decide },
   { data := [], err := some (.other "input/output error"), fits := by decide }]

/-- The scenario of the specification: `a.txt` = "hello", `b.txt` = "hello",
`c.txt` = "world". -/
def threeFiles : List FileInfo :=
  [{ Name := "a.txt", IsDir := false }, { Name := "b.txt", IsDir := false },
   { Name := "c.txt", IsDir := false }]

/-- The three files together with a subdirectory, a file that cannot be opened and
a file that cannot be read to its end. -/
def sixEntries : List FileInfo :=
  [{ Name := "sub", IsDir := true }, { Name := "locked.txt", IsDir := false },
   { Name := "a.txt", IsDir := false }, { Name := "broken.txt", IsDir := false },
   { Name := "b.txt", IsDir := false }, { Name := "c.txt", IsDir := false }]

/-- A machine with `w`-bit integers whose directory `dir` lists `listing`. -/
def sampleEnv (w : Nat) (listing : List FileInfo) : Env :=
  { intSize := w
    hasher := concatHasher
    ReadDir := fun path =>
      if path = "dir" then .ok listing else .error (.other "no such file or directory")
    Join := fun dir name => dir ++ "/" ++ name
    Open := fun path =>
      if path = "dir/a.txt" then .ok helloWhole
      else if path = "dir/b.txt" then .ok helloSplit
      else if path = "dir/c.txt" then .ok worldWhole
      else if path = "dir/broken.txt" then .ok brokenReader
      else .error (.other "permission denied") }

/-! ## Facts about `GoMap` -/

theorem GoMap.get_put_same (m : GoMap) (k : Hash) (v : List File) :
    (m.put k v).get k = some v := by
  induction m with
  | nil => simp [GoMap.put, GoMap.get]
  | cons e rest ih =>
    obtain ⟨k', v'⟩ := e
    by_cases h : k' = k
    · simp [GoMap.put, GoMap.get, h]
    · simp [GoMap.put, GoMap.get, h, ih]

theorem GoMap.get_put_ne (m : GoMap) (k k2 : Hash) (v : List File) (hne : k2 ≠ k) :
    (m.put k v).get k2 = m.get k2 := by
  induction m with
  | nil => simp [GoMap.put, GoMap.get, Ne.symm hne]
  | cons e rest ih =>
    obtain ⟨k', v'⟩ := e
    by_cases h : k' = k
    · subst h
      simp [GoMap.put, GoMap.get, Ne.symm hne]
    · by_cases h2 : k' = k2
      · subst h2
        simp [GoMap.put, GoMap.get, h]
      · simp [GoMap.put, GoMap.get, h, h2, ih]

theorem GoMap.get_eq_none_iff (m : GoMap) (k : Hash) :
    m.get k = none ↔ k ∉ m.keys := by
  induction m with
  | nil => simp [GoMap.get, GoMap.keys]
  | cons e rest ih =>
    obtain ⟨k', v'⟩ := e
    by_cases h : k' = k
    · simp [GoMap.get, GoMap.keys, h]
    · simp only [GoMap.get, h, if_false, ih]
      simp [GoMap.keys, Ne.symm h]

theorem GoMap.keys_put (m : GoMap) (k : Hash) (v : List File) :
    (m.put k v).keys = if k ∈ m.keys then m.keys else m.keys ++ [k] := by
  induction m with
  | nil => simp [GoMap.put, GoMap.keys]
  | cons e rest ih =>
    obtain ⟨k', v'⟩ := e
    by_cases h : k' = k
    · simp [GoMap.put, GoMap.keys, h]
    · have ih2 : List.map Prod.fst (GoMap.put rest k v)
          = if k ∈ List.map Prod.fst rest then List.map Prod.fst rest
            else List.map Prod.fst rest ++ [k] := ih
      simp only [GoMap.put, GoMap.keys, h, if_false, List.map_cons, ih2, List.mem_cons,
        Ne.symm h, false_or]
      split <;> simp

theorem GoMap.nodup_keys_put (m : GoMap) (k : Hash) (v : List File)
    (hm : m.keys.Nodup) : (m.put k v).keys.Nodup := by
  rw [GoMap.keys_put]
  split
  · exact hm
  · rename_i h
    exact List.Nodup.append hm (List.nodup_singleton k) (by simpa using h)

theorem GoMap.get_eq_some_iff (m : GoMap) (hm : m.keys.Nodup) (k : Hash) (v : List File) :
    m.get k = some v ↔ (k, v) ∈ m := by
  induction m with
  | nil => simp [GoMap.get]
  | cons e rest ih =>
    obtain ⟨k', v'⟩ := e
    have hnd : k' ∉ GoMap.keys rest ∧ (GoMap.keys rest).Nodup := by
      simpa [GoMap.keys] using hm
    by_cases h : k' = k
    · subst h
      have : ∀ v, (k', v) ∉ rest := fun v hv =>
        hnd.1 (List.mem_map.mpr ⟨(k', v), hv, rfl⟩)
      simp [GoMap.get, this, eq_comm]
    · simp [GoMap.get, h, ih hnd.2, Ne.symm h]


/-! ## Facts about `ScanMap.Set` -/

theorem filesOf_cons_same (c : Hash × File) (rest : List (Hash × File)) :
    filesOf (c :: rest) c.1 = c.2 :: filesOf rest c.1 := by
  simp [filesOf]

theorem filesOf_cons_ne (c : Hash × File) (rest : List (Hash × File)) (h : Hash)
    (hne : c.1 ≠ h) : filesOf (c :: rest) h = filesOf rest h := by
  simp [filesOf, hne]

theorem ScanMap.Set_get_same (sm : ScanMap) (hash : Hash) (file : File) :
    (sm.Set hash file).1.hashMap.get hash
      = some ((sm.hashMap.get hash).getD [] ++ [file]) := by
  unfold ScanMap.Set
  cases hg : sm.hashMap.get hash with
  | none => simp [GoMap.get_put_same]
  | some fs => simp [GoMap.get_put_same, hg]

theorem ScanMap.Set_get_ne (sm : ScanMap) (hash other : Hash) (file : File)
    (hne : other ≠ hash) :
    (sm.Set hash file).1.hashMap.get other = sm.hashMap.get other := by
  unfold ScanMap.Set
  cases hg : sm.hashMap.get hash with
  | none => simp [GoMap.get_put_ne _ _ _ _ hne]
  | some fs => simp [GoMap.get_put_ne _ _ _ _ hne]

theorem ScanMap.Set_keys (sm : ScanMap) (hash : Hash) (file : File) :
    (sm.Set hash file).1.hashMap.keys
      = if hash ∈ sm.hashMap.keys then sm.hashMap.keys else sm.hashMap.keys ++ [hash] := by
  unfold ScanMap.Set
  cases hg : sm.hashMap.get hash with
  | none =>
    have hk : hash ∉ sm.hashMap.keys := (GoMap.get_eq_none_iff _ _).mp hg
    simp [GoMap.keys_put, hk]
  | some fs =>
    have hk : hash ∈ sm.hashMap.keys := by
      by_contra hc
      rw [(GoMap.get_eq_none_iff _ _).mpr hc] at hg
      cases hg
    simp [GoMap.keys_put, hk]

theorem ScanMap.Set_nodup (sm : ScanMap) (hash : Hash) (file : File)
    (hm : sm.hashMap.keys.Nodup) : (sm.Set hash file).1.hashMap.keys.Nodup := by
  rw [ScanMap.Set_keys]
  split
  · exact hm
  · rename_i h
    exact List.Nodup.append hm (List.nodup_singleton _) (by simpa using h)

theorem ScanMap.applyCalls_nodup (calls : List (Hash × File)) (sm : ScanMap)
    (hm : sm.hashMap.keys.Nodup) : (sm.applyCalls calls).hashMap.keys.Nodup := by
  induction calls generalizing sm with
  | nil => exact hm
  | cons c rest ih => exact ih _ (ScanMap.Set_nodup sm c.1 c.2 hm)

theorem ScanMap.applyCalls_get (calls : List (Hash × File)) (sm : ScanMap) (h : Hash) :
    (sm.applyCalls calls).hashMap.get h
      = if filesOf calls h = [] then sm.hashMap.get h
        else some ((sm.hashMap.get h).getD [] ++ filesOf calls h) := by
  induction calls generalizing sm with
  | nil => simp [ScanMap.applyCalls, filesOf]
  | cons c rest ih =>
    have step : sm.applyCalls (c :: rest) = (sm.Set c.1 c.2).1.applyCalls rest := rfl
    rw [step, ih]
    by_cases hc : c.1 = h
    · subst hc
      rw [ScanMap.Set_get_same]
      rw [filesOf_cons_same]
      by_cases hr : filesOf rest c.1 = []
      · simp [hr]
      · simp [hr]
    · rw [ScanMap.Set_get_ne _ _ _ _ (Ne.symm hc), filesOf_cons_ne _ _ _ hc]

/-! ## The reduction loop -/

theorem reduceLoop_eq (entries : List (Hash × List File)) (acc : List Duplicate) :
    reduceLoop entries acc = acc ++ groupsOf entries := by
  induction entries generalizing acc with
  | nil => simp [reduceLoop, groupsOf]
  | cons e rest ih =>
    obtain ⟨k, files⟩ := e
    by_cases h : (files.length : Int) ≤ 1
    · have h2 : ¬ 2 ≤ files.length := by omega
      simp [reduceLoop, h, ih, groupsOf, h2]
    · have h2 : 2 ≤ files.length := by omega
      simp [reduceLoop, h, ih, groupsOf, h2]

theorem groupsOf_perm {a b : List (Hash × List File)} (h : a.Perm b) :
    (groupsOf a).Perm (groupsOf b) :=
  (h.filter _).map _

theorem GoMap.keys_filter_length (m : GoMap) (hm : m.keys.Nodup) :
    (m.keys.filter (fun h => decide (2 ≤ ((m.get h).getD []).length))).length
      = (m.filter (fun e => decide (2 ≤ e.2.length))).length := by
  have hcongr : m.filter ((fun h => decide (2 ≤ ((m.get h).getD []).length)) ∘ Prod.fst)
      = m.filter (fun e => decide (2 ≤ e.2.length)) := by
    apply List.filter_congr
    intro e he
    have : m.get e.1 = some e.2 := (GoMap.get_eq_some_iff m hm e.1 e.2).mpr he
    simp [this]
  unfold GoMap.keys
  rw [List.filter_map, hcongr, List.length_map]

/-- C9. `ScanMap.Set(digest, file)` appends and changes nothing else: for every map
state, digest and file, after `Set` the sequence stored under `digest` is the
previous one (the empty sequence if `digest` was absent) with `file` appended at
the end, the sequence under every other digest is unchanged, no digest is removed,
the returned error is nil, and `Length()` grows by exactly 1 if `digest` was
absent and is unchanged otherwise. -/
theorem ScanMap_Set_appends (sm : ScanMap) (hash : Hash) (file : File) :
    (sm.Set hash file).1.hashMap.get hash
        = some ((sm.hashMap.get hash).getD [] ++ [file]) ∧
    (∀ other : Hash, other ≠ hash →
        (sm.Set hash file).1.hashMap.get other = sm.hashMap.get other) ∧
    (∀ d : Hash, (sm.hashMap.get d).isSome → ((sm.Set hash file).1.hashMap.get d).isSome) ∧
    (sm.Set hash file).2 = none ∧
    (sm.Set hash file).1.Length
        = if sm.hashMap.get hash = none then sm.Length + 1 else sm.Length := by
  refine ⟨ScanMap.Set_get_same sm hash file, fun o ho => ScanMap.Set_get_ne sm hash o file ho,
    ?_, rfl, ?_⟩
  · intro d hd
    by_cases h : d = hash
    · subst h
      rw [ScanMap.Set_get_same]
      rfl
    · rw [ScanMap.Set_get_ne sm hash d file h]
      exact hd
  · have hk := congrArg List.length (ScanMap.Set_keys sm hash file)
    simp only [GoMap.keys, List.length_map] at hk
    unfold ScanMap.Length
    rw [hk]
    by_cases hg : sm.hashMap.get hash = none
    · have : hash ∉ List.map Prod.fst sm.hashMap := (GoMap.get_eq_none_iff _ _).mp hg
      simp [hg, this]
    · have : hash ∈ List.map Prod.fst sm.hashMap := by
        by_contra hc
        exact hg ((GoMap.get_eq_none_iff _ _).mpr hc)
      simp [hg, this]

/-- C4. The reduction step of `Scan` is exact: for every final digest-to-files map
and every order in which `range` yields its entries, each entry yields its group
when its file sequence has at least 2 files and nothing otherwise, so the returned
groups are, up to their order, one group for each digest with at least 2 files,
whose `Files` is that sequence unchanged; every returned group has at least 2
files and is the sequence of some digest, and the number of groups is the number
of digests with at least 2 files. -/
theorem Scan_reduce_exact (m : GoMap) (rangeOrder : GoMap → List (Hash × List File))
    (hm : m.keys.Nodup) (hro : IsRangeOrder rangeOrder) :
    reduceLoop (rangeOrder m) []
        = (rangeOrder m).filterMap
            (fun e => if 2 ≤ e.2.length then some (Duplicate.mk e.2) else none) ∧
    (reduceLoop (rangeOrder m) []).Perm
        ((m.filter (fun e => decide (2 ≤ e.2.length))).map (fun e => Duplicate.mk e.2)) ∧
    (∀ (h : Hash) (fs : List File), m.get h = some fs → 2 ≤ fs.length →
        Duplicate.mk fs ∈ reduceLoop (rangeOrder m) []) ∧
    (∀ g ∈ reduceLoop (rangeOrder m) [],
        2 ≤ g.Files.length ∧ ∃ h : Hash, m.get h = some g.Files) ∧
    (reduceLoop (rangeOrder m) []).length
        = (m.keys.filter (fun h => decide (2 ≤ ((m.get h).getD []).length))).length := by
  have hperm : (reduceLoop (rangeOrder m) []).Perm (groupsOf m) := by
    rw [reduceLoop_eq, List.nil_append]
    exact groupsOf_perm (hro m)
  refine ⟨?_, hperm, ?_, ?_, ?_⟩
  · rw [reduceLoop_eq, List.nil_append, groupsOf]
    induction rangeOrder m with
    | nil => rfl
    | cons e rest ih =>
      by_cases h : 2 ≤ e.2.length
      · simp [List.filter_cons, List.filterMap_cons, h, ih]
      · simp [List.filter_cons, List.filterMap_cons, h, ih]
  · intro h fs hg hl
    rw [hperm.mem_iff]
    have hmem : (h, fs) ∈ m := (GoMap.get_eq_some_iff m hm h fs).mp hg
    simp only [groupsOf, List.mem_map, List.mem_filter, decide_eq_true_eq]
    exact ⟨(h, fs), ⟨hmem, hl⟩, rfl⟩
  · intro g hg
    rw [hperm.mem_iff] at hg
    simp only [groupsOf, List.mem_map, List.mem_filter, decide_eq_true_eq] at hg
    obtain ⟨e, ⟨he, hl⟩, rfl⟩ := hg
    exact ⟨hl, e.1, (GoMap.get_eq_some_iff m hm e.1 e.2).mpr he⟩
  · rw [hperm.length_eq, GoMap.keys_filter_length m hm, groupsOf, List.length_map]

/-! ## Independence of the order of the `Set` calls -/

theorem filesOf_perm {calls1 calls2 : List (Hash × File)} (hp : calls1.Perm calls2)
    (h : Hash) : (filesOf calls1 h).Perm (filesOf calls2 h) :=
  (hp.filter _).map _

theorem ScanMap.new_get (calls : List (Hash × File)) (h : Hash) :
    (NewScanMap.applyCalls calls).hashMap.get h
      = if filesOf calls h = [] then none else some (filesOf calls h) := by
  rw [ScanMap.applyCalls_get]
  simp [NewScanMap, GoMap.get]

theorem ScanMap.new_nodup (calls : List (Hash × File)) :
    (NewScanMap.applyCalls calls).hashMap.keys.Nodup :=
  ScanMap.applyCalls_nodup calls NewScanMap (by simp [NewScanMap, GoMap.keys])

theorem ScanMap.new_mem (calls : List (Hash × File)) (h : Hash) (fs : List File) :
    (h, fs) ∈ (NewScanMap.applyCalls calls).hashMap ↔ fs = filesOf calls h ∧ fs ≠ [] := by
  rw [← GoMap.get_eq_some_iff _ (ScanMap.new_nodup calls), ScanMap.new_get]
  by_cases he : filesOf calls h = []
  · simp only [he, if_true]
    constructor
    · intro hh; cases hh
    · rintro ⟨h1, h2⟩; exact absurd h1 h2
  · simp only [he, if_false, Option.some.injEq]
    constructor
    · intro hh; exact ⟨hh.symm, hh ▸ he⟩
    · rintro ⟨h1, _⟩; exact h1.symm

theorem groupsOf_forall₂ {a b : List (Hash × List File)}
    (h : List.Forall₂ (fun e e2 => e.2.Perm e2.2) a b) :
    List.Forall₂ (fun g g2 => g.Files.Perm g2.Files) (groupsOf a) (groupsOf b) := by
  induction h with
  | nil => exact List.Forall₂.nil
  | @cons e e2 l l2 hr _ ih =>
    have hl : e.2.length = e2.2.length := hr.length_eq
    by_cases h2 : 2 ≤ e.2.length
    · have h3 : 2 ≤ e2.2.length := hl ▸ h2
      simp only [groupsOf, List.filter_cons, h2, h3, decide_True, if_true, List.map_cons]
      exact List.Forall₂.cons hr ih
    · have h3 : ¬ 2 ≤ e2.2.length := hl ▸ h2
      simp only [groupsOf, List.filter_cons, h2, h3, decide_False, Bool.false_eq_true, if_false]
      exact ih

theorem applyCalls_entries_perm {calls1 calls2 : List (Hash × File)}
    (hp : calls1.Perm calls2) :
    ∃ l : List (Hash × List File), (NewScanMap.applyCalls calls1).hashMap.Perm l ∧
      List.Forall₂ (fun e e2 => e.2.Perm e2.2) l (NewScanMap.applyCalls calls2).hashMap := by
  let m1 := (NewScanMap.applyCalls calls1).hashMap
  let m2 := (NewScanMap.applyCalls calls2).hashMap
  let f : Hash × List File → Hash × List File := fun e => (e.1, filesOf calls1 e.1)
  have hkeys : (m2.map f).map Prod.fst = m2.map Prod.fst := by
    rw [List.map_map]; rfl
  have hnd2 : (m2.map f).Nodup := by
    have : ((m2.map f).map Prod.fst).Nodup := by
      rw [hkeys]; exact ScanMap.new_nodup calls2
    exact List.Nodup.of_map _ this
  have hnd1 : m1.Nodup := List.Nodup.of_map _ (ScanMap.new_nodup calls1)
  refine ⟨m2.map f, ?_, ?_⟩
  · rw [List.perm_ext_iff_of_nodup hnd1 hnd2]
    rintro ⟨k, v⟩
    rw [ScanMap.new_mem, List.mem_map]
    constructor
    · rintro ⟨hv, hne⟩
      have hne2 : filesOf calls2 k ≠ [] := by
        intro h0
        have := (filesOf_perm hp k).length_eq
        rw [h0, ← hv] at this
        exact hne (List.length_eq_zero.mp this)
      exact ⟨(k, filesOf calls2 k), (ScanMap.new_mem calls2 k _).mpr ⟨rfl, hne2⟩, by simp [f, hv]⟩
    · rintro ⟨⟨k2, v2⟩, hmem, heq⟩
      have h2 := (ScanMap.new_mem calls2 k2 v2).mp hmem
      simp only [f, Prod.mk.injEq] at heq
      obtain ⟨rfl, rfl⟩ := heq
      refine ⟨rfl, ?_⟩
      intro h0
      have := (filesOf_perm hp k2).length_eq
      rw [h0, ← h2.1] at this
      exact h2.2 (List.length_eq_zero.mp this.symm)
  · rw [List.forall₂_map_left_iff]
    apply List.forall₂_same.mpr
    rintro ⟨k, v⟩ hmem
    have h2 := (ScanMap.new_mem calls2 k v).mp hmem
    simp only [f]
    rw [h2.1]
    exact filesOf_perm hp k

/-- C8. The result depends only on which `Set` calls were made, not on their
order: applying a list of calls and any permutation of it to an empty `ScanMap`
gives maps with the same digests and, under each digest, file sequences that are
permutations of each other; hence the groups the reduction returns are the same
up to the order of the groups and the order of the files inside a group. -/
theorem Set_order_irrelevant (calls1 calls2 : List (Hash × File))
    (order1 order2 : GoMap → List (Hash × List File))
    (hp : calls1.Perm calls2) (ho1 : IsRangeOrder order1) (ho2 : IsRangeOrder order2) :
    (∀ h : Hash, h ∈ (NewScanMap.applyCalls calls1).hashMap.keys
        ↔ h ∈ (NewScanMap.applyCalls calls2).hashMap.keys) ∧
    (∀ (h : Hash) (fs1 : List File), (NewScanMap.applyCalls calls1).hashMap.get h = some fs1 →
        ∃ fs2, (NewScanMap.applyCalls calls2).hashMap.get h = some fs2 ∧ fs1.Perm fs2) ∧
    SameGroups (reduceLoop (order1 (NewScanMap.applyCalls calls1).GetMap) [])
      (reduceLoop (order2 (NewScanMap.applyCalls calls2).GetMap) []) := by
  have hget : ∀ (h : Hash) (fs1 : List File),
      (NewScanMap.applyCalls calls1).hashMap.get h = some fs1 →
        ∃ fs2, (NewScanMap.applyCalls calls2).hashMap.get h = some fs2 ∧ fs1.Perm fs2 := by
    intro h fs1 h1
    rw [GoMap.get_eq_some_iff _ (ScanMap.new_nodup calls1), ScanMap.new_mem] at h1
    refine ⟨filesOf calls2 h, ?_, h1.1 ▸ filesOf_perm hp h⟩
    rw [GoMap.get_eq_some_iff _ (ScanMap.new_nodup calls2), ScanMap.new_mem]
    refine ⟨rfl, ?_⟩
    intro h0
    have := (filesOf_perm hp h).length_eq
    rw [h0, ← h1.1] at this
    exact h1.2 (List.length_eq_zero.mp this)
  refine ⟨?_, hget, ?_⟩
  · intro h
    have key : ∀ calls : List (Hash × File),
        h ∈ (NewScanMap.applyCalls calls).hashMap.keys ↔ filesOf calls h ≠ [] := by
      intro calls
      rw [← not_iff_not, ← GoMap.get_eq_none_iff, ScanMap.new_get]
      by_cases he : filesOf calls h = [] <;> simp [he]
    rw [key, key]
    have := (filesOf_perm hp h).length_eq
    constructor
    · intro h1 h0; rw [h0] at this; exact h1 (List.length_eq_zero.mp this)
    · intro h1 h0; rw [h0] at this; exact h1 (List.length_eq_zero.mp this.symm)
  · obtain ⟨l, hl1, hl2⟩ := applyCalls_entries_perm hp
    simp only [ScanMap.GetMap, reduceLoop_eq, List.nil_append]
    have h1 : (groupsOf (order1 (NewScanMap.applyCalls calls1).hashMap)).Perm (groupsOf l) :=
      groupsOf_perm ((ho1 _).trans hl1)
    have h2 := groupsOf_forall₂ hl2
    have h3 : (groupsOf (NewScanMap.applyCalls calls2).hashMap).Perm
        (groupsOf (order2 (NewScanMap.applyCalls calls2).hashMap)) :=
      groupsOf_perm (ho2 _).symm
    have h4 : Relation.Comp (List.Forall₂ (fun g g2 : Duplicate => g.Files.Perm g2.Files))
        List.Perm (groupsOf l) (groupsOf (order2 (NewScanMap.applyCalls calls2).hashMap)) :=
      ⟨_, h2, h3⟩
    rw [List.forall₂_comp_perm_eq_perm_comp_forall₂] at h4
    obtain ⟨c, hc1, hc2⟩ := h4
    exact ⟨c, h1.trans hc1, hc2⟩

/-! ## `hashFile` -/

theorem Hasher.feed_feed (H : Hasher) (hH : H.Lawful) (h : H.State) (a b : Bytes) :
    H.feed (H.feed h a) b = H.feed h (a ++ b) := by
  unfold Hasher.feed
  by_cases ha : 0 < a.length
  · by_cases hb : 0 < b.length
    · have hab : 0 < (a ++ b).length := by rw [List.length_append]; omega
      simp only [ha, hb, hab, if_true]
      exact hH.write_append h a b
    · have hb0 : b = [] := List.length_eq_zero.mp (by omega)
      subst hb0
      simp [ha]
  · have ha0 : a = [] := List.length_eq_zero.mp (by omega)
    subst ha0
    simp

theorem hashLoop_step_nil (H : Hasher) (hH : H.Lawful) (r : ReadResult) (rest : Reader)
    (h : H.State) (hr : r.err = none) :
    hashLoop H (r :: rest) h = hashLoop H rest (H.feed h r.data) := by
  unfold Hasher.feed
  by_cases hd : 0 < r.data.length
  · simp [hashLoop, hd, hH.write_ok, hr]
  · simp [hashLoop, hd, hr]

theorem hashLoop_step_eof (H : Hasher) (hH : H.Lawful) (r : ReadResult) (rest : Reader)
    (h : H.State) (hr : r.err = some GoError.EOF) :
    hashLoop H (r :: rest) h = (H.Sum (H.feed h r.data), none) := by
  unfold Hasher.feed
  by_cases hd : 0 < r.data.length
  · simp [hashLoop, hd, hH.write_ok, hr]
  · simp [hashLoop, hd, hr]

theorem hashLoop_deliver (H : Hasher) (hH : H.Lawful) (pre : List ReadResult)
    (last : ReadResult) (post : Reader) (h : H.State)
    (hpre : ∀ r ∈ pre, r.err = none) (hlast : last.err = some GoError.EOF) :
    hashLoop H (pre ++ last :: post) h
      = (H.Sum (H.feed h ((pre.map ReadResult.data).flatten ++ last.data)), none) := by
  induction pre generalizing h with
  | nil => simpa using hashLoop_step_eof H hH last post h hlast
  | cons r rest ih =>
    have hr : r.err = none := hpre r (List.mem_cons_self _ _)
    have hrest : ∀ x ∈ rest, x.err = none := fun x hx => hpre x (List.mem_cons_of_mem _ hx)
    rw [List.cons_append, hashLoop_step_nil H hH r _ h hr, ih _ hrest, Hasher.feed_feed H hH]
    simp [List.append_assoc]

/-- C7. The digest of `hashFile` depends only on the bytes of the file, not on how
the reads cut them: for a hash whose `Write` never fails and for which writing `a`
then `b` equals writing `a ++ b`, and for every sequence of `Read` results (each
of at most 10240 bytes) that are error-free up to one that carries end-of-stream,
alone or together with the last bytes, `hashFile` returns no error and the digest
of the concatenated content hashed in one piece; so any two such deliveries of
the same bytes get identical results. -/
theorem hashFile_chunking (H : Hasher) (pre : List ReadResult) (last : ReadResult)
    (post : Reader) (hH : H.Lawful)
    (hpre : ∀ r ∈ pre, r.err = none) (hlast : last.err = some GoError.EOF) :
    hashFile H (pre ++ last :: post)
        = (H.digest ((pre.map ReadResult.data).flatten ++ last.data), none) ∧
    (∀ (pre2 : List ReadResult) (last2 : ReadResult) (post2 : Reader),
        (∀ r ∈ pre2, r.err = none) → last2.err = some GoError.EOF →
        (pre2.map ReadResult.data).flatten ++ last2.data
          = (pre.map ReadResult.data).flatten ++ last.data →
        hashFile H (pre2 ++ last2 :: post2) = hashFile H (pre ++ last :: post)) := by
  have key : ∀ (p : List ReadResult) (l : ReadResult) (q : Reader),
      (∀ r ∈ p, r.err = none) → l.err = some GoError.EOF →
      hashFile H (p ++ l :: q) = (H.digest ((p.map ReadResult.data).flatten ++ l.data), none) :=
    fun p l q hp hl => hashLoop_deliver H hH p l q H.New hp hl
  refine ⟨key pre last post hpre hlast, ?_⟩
  intro pre2 last2 post2 hp2 hl2 hc
  rw [key pre2 last2 post2 hp2 hl2, key pre last post hpre hlast, hc]

/-! ## `scanChunk` -/

theorem scanChunk_cons_of_realises (env : Env) (s : Scanner) (file : FileInfo) (o : Outcome)
    (rest : List FileInfo) (h : Realises env s file o) :
    Scanner.scanChunk env s (file :: rest)
      = recorded [(file, o)] ++ Scanner.scanChunk env s rest := by
  cases o with
  | isDirectory =>
    have hd : file.IsDir = true := h
    simp [Scanner.scanChunk, recorded, hd]
  | openFails =>
    obtain ⟨hd, e, he⟩ := h
    simp [Scanner.scanChunk, recorded, hd, he]
  | digestFails =>
    obtain ⟨hd, f, e, hf, he⟩ := h
    have hh : hashFile env.hasher f = ((hashFile env.hasher f).1, some e) := by
      rw [← he]
    simp only [Scanner.scanChunk, recorded, hd, hf]
    rw [hh]
    simp
  | digest d =>
    obtain ⟨hd, f, hf, he⟩ := h
    simp [Scanner.scanChunk, recorded, hd, hf, he]

theorem recorded_cons (p : FileInfo × Outcome) (rest : List (FileInfo × Outcome)) :
    recorded (p :: rest) = recorded [p] ++ recorded rest := by
  obtain ⟨file, o⟩ := p
  cases o <;> simp [recorded]

theorem scanChunk_append (env : Env) (s : Scanner) (a b : List FileInfo) :
    Scanner.scanChunk env s (a ++ b)
      = Scanner.scanChunk env s a ++ Scanner.scanChunk env s b := by
  induction a with
  | nil => simp [Scanner.scanChunk]
  | cons file rest ih =>
    simp only [List.cons_append, Scanner.scanChunk]
    split
    · exact ih
    · split
      · exact ih
      · split
        · exact ih
        · simp [ih]

/-- C5. Directories and per-file failures are left out without stopping the chunk:
for every chunk and every assignment of outcomes (is a directory, open fails,
digest fails, digest succeeds with value `d`) that its entries meet, the sequence
of `Set` calls of `scanChunk` is exactly, in chunk order, `(d, name)` for the
entries that were digested; and the calls of a chunk are those of any initial
part followed by those of the rest, whatever happened in the initial part. -/
theorem scanChunk_records (env : Env) (s : Scanner) (chunk : List FileInfo)
    (outs : List Outcome) (h : List.Forall₂ (Realises env s) chunk outs) :
    Scanner.scanChunk env s chunk = recorded (chunk.zip outs) ∧
    (∀ before after : List FileInfo, chunk = before ++ after →
        Scanner.scanChunk env s chunk
          = Scanner.scanChunk env s before ++ Scanner.scanChunk env s after) := by
  constructor
  · induction h with
    | nil => simp [Scanner.scanChunk, recorded]
    | @cons file o rest outs hr _ ih =>
      rw [scanChunk_cons_of_realises env s file o rest hr, ih, List.zip_cons_cons]
      exact (recorded_cons (file, o) (rest.zip outs)).symm
  · rintro before after rfl
    exact scanChunk_append env s before after

/-! ## Machine integers -/

theorem two_pow_split (w : Nat) (hw : 1 ≤ w) : (2 : Int) ^ w = 2 * 2 ^ (w - 1) := by
  obtain ⟨v, rfl⟩ : ∃ v, w = v + 1 := ⟨w - 1, by omega⟩
  simp [pow_succ, mul_comm]

theorem toInt_eq_self (w : Nat) (hw : 1 ≤ w) (x : Int)
    (h1 : -(2 : Int) ^ (w - 1) ≤ x) (h2 : x < 2 ^ (w - 1)) : toInt w x = x := by
  unfold toInt
  rw [two_pow_split w hw, Int.emod_eq_of_lt (by omega) (by omega)]
  omega

theorem toInt_wrap (w : Nat) (hw : 1 ≤ w) (x : Int)
    (h1 : (2 : Int) ^ (w - 1) ≤ x) (h2 : x < 2 ^ w) : toInt w x = x - 2 ^ w := by
  unfold toInt
  rw [two_pow_split w hw] at h2 ⊢
  have : x + 2 ^ (w - 1) = (x - 2 ^ (w - 1)) + 1 * (2 * 2 ^ (w - 1)) := by ring
  rw [this, Int.add_mul_emod_self, Int.emod_eq_of_lt (by omega) (by omega)]
  omega

theorem toUint_eq_self (w : Nat) (x : Int) (h1 : 0 ≤ x) (h2 : x < 2 ^ w) :
    toUint w x = x := by
  unfold toUint
  exact Int.emod_eq_of_lt h1 h2

theorem two_pow_pos_int (w : Nat) : (0 : Int) < 2 ^ w := by positivity

theorem two_pow_half_lt (w : Nat) (hw : 1 ≤ w) : (2 : Int) ^ (w - 1) < 2 ^ w := by
  rw [two_pow_split w hw]
  have := two_pow_pos_int (w - 1)
  omega


/-! ## The partition loop -/

theorem numGoroutines_small (w : Nat) (hw : 1 ≤ w) (n mt : Nat)
    (hn : (n : Int) < 2 ^ (w - 1)) (hmt : (mt : Int) < 2 ^ (w - 1)) :
    numGoroutines w (n : Int) (mt : Int) = ((min mt n : Nat) : Int) := by
  unfold numGoroutines
  have hlt := two_pow_half_lt w hw
  rw [toInt_eq_self w hw mt (by omega) hmt]
  by_cases h : (n : Int) < mt
  · rw [if_pos h, toUint_eq_self w n (by omega) (by omega)]
    congr 1
    omega
  · rw [if_neg h]
    congr 1
    omega

theorem numGoroutines_large (w : Nat) (hw : 1 ≤ w) (n mt : Nat)
    (h1 : (2 : Int) ^ (w - 1) ≤ mt) (h2 : (mt : Int) < 2 ^ w) :
    numGoroutines w (n : Int) (mt : Int) = (mt : Int) ∧ toInt w (mt : Int) < 0 := by
  have hneg : toInt w (mt : Int) < 0 := by
    rw [toInt_wrap w hw mt h1 h2]
    omega
  refine ⟨?_, hneg⟩
  unfold numGoroutines
  rw [if_neg (by omega)]

theorem chunkSize_small (w : Nat) (hw : 1 ≤ w) (n g : Nat)
    (hn : (n : Int) < 2 ^ (w - 1)) (hg : g ≤ n) :
    chunkSize w (n : Int) (g : Int) = ((n / g : Nat) : Int) := by
  unfold chunkSize
  have hp := two_pow_pos_int (w - 1)
  rw [toInt_eq_self w hw g (by omega) (by omega), ← Int.ofNat_tdiv]
  have hq : n / g ≤ n := Nat.div_le_self n g
  generalize n / g = q at hq
  exact toInt_eq_self w hw _ (by omega) (by omega)

theorem slice_natCast {α : Type} (s : List α) (a b : Nat) (hab : a ≤ b) (hb : b ≤ s.length) :
    slice s (a : Int) (b : Int) = .ok ((s.drop a).take (b - a)) := by
  unfold slice
  rw [if_pos (by omega)]
  simp only [Int.toNat_ofNat]

/-- The bounds the loop computes at iteration `i < g` when nothing wraps: `c` is
the chunk size. -/
theorem chunkBounds_small (w : Nat) (hw : 1 ≤ w) (n g c i : Nat)
    (hn : (n : Int) < 2 ^ (w - 1)) (hg1 : 1 ≤ g) (hg : g ≤ n) (hc : g * c ≤ n) (hi : i < g) :
    chunkBounds w (n : Int) (g : Int) (c : Int) (i : Int)
      = (((i * c : Nat) : Int), if i + 1 = g then (n : Int) else ((i * c + c : Nat) : Int)) ∧
    i * c + c ≤ n := by
  have hp := two_pow_pos_int (w - 1)
  have hlt := two_pow_half_lt w hw
  have hle : i * c + c ≤ n := by
    calc i * c + c = (i + 1) * c := by ring
      _ ≤ g * c := Nat.mul_le_mul_right _ hi
      _ ≤ n := hc
  refine ⟨?_, hle⟩
  unfold chunkBounds
  have e1 : (i : Int) * (c : Int) = ((i * c : Nat) : Int) := by push_cast; ring
  have e2 : ((i * c : Nat) : Int) + (c : Int) = ((i * c + c : Nat) : Int) := by push_cast; ring
  generalize i * c = s at hle e1 e2
  have hs : toInt w ((i : Int) * (c : Int)) = (s : Int) := by
    rw [e1]
    exact toInt_eq_self w hw _ (by omega) (by omega)
  have he : toInt w ((s : Int) + (c : Int)) = ((s + c : Nat) : Int) := by
    rw [e2]
    exact toInt_eq_self w hw _ (by omega) (by omega)
  have hl : toInt w (toUint w ((g : Int) - 1)) = (g : Int) - 1 := by
    rw [toUint_eq_self w _ (by omega) (by omega)]
    exact toInt_eq_self w hw _ (by omega) (by omega)
  simp only [hs, he, hl]
  by_cases hlast : i + 1 = g
  · rw [if_pos (by omega), if_pos hlast]
  · rw [if_neg (by omega), if_neg hlast]

theorem spawnLoop_small {α : Type} (w : Nat) (hw : 1 ≤ w) (files : List α) (g c : Nat)
    (hn : (files.length : Int) < 2 ^ (w - 1)) (hg1 : 1 ≤ g) (hg : g ≤ files.length)
    (hc : g * c ≤ files.length) (k i : Nat) (hik : i + k = g) :
    ∃ chunks : List (List α),
      spawnLoop w files (g : Int) (c : Int) k (i : Int) = .ok chunks ∧
      chunks.length = k ∧
      chunks.flatten = (if k = 0 then [] else files.drop (i * c)) := by
  induction k generalizing i with
  | zero => exact ⟨[], rfl, rfl, rfl⟩
  | succ k ih =>
    have hi : i < g := by omega
    obtain ⟨hb, hle⟩ := chunkBounds_small w hw files.length g c i hn hg1 hg hc hi
    have hnext : toInt w ((i : Int) + 1) = ((i + 1 : Nat) : Int) := by
      have hp := two_pow_pos_int (w - 1)
      rw [toInt_eq_self w hw _ (by omega) (by omega)]
      push_cast; ring
    obtain ⟨rest, hrest, hlen, hflat⟩ := ih (i + 1) (by omega)
    by_cases hlast : i + 1 = g
    · have hk : k = 0 := by omega
      subst hk
      have hrest0 : rest = [] := List.length_eq_zero.mp hlen
      subst hrest0
      refine ⟨[files.drop (i * c)], ?_, rfl, by simp⟩
      have hsl : slice files ((i * c : Nat) : Int) (files.length : Int)
          = .ok (files.drop (i * c)) := by
        rw [slice_natCast files _ _ (by omega) (le_refl _)]
        congr 1
        apply List.take_of_length_le
        simp
      simp only [spawnLoop, hb, hnext, hrest, if_pos hlast, hsl]
    · have hk : k ≠ 0 := by omega
      refine ⟨(files.drop (i * c)).take c :: rest, ?_, by simp [hlen], ?_⟩
      · have hsl : slice files ((i * c : Nat) : Int) ((i * c + c : Nat) : Int)
            = .ok ((files.drop (i * c)).take c) := by
          rw [slice_natCast files _ _ (by omega) hle]
          congr 2
          omega
        simp only [spawnLoop, hb, hnext, hrest, if_neg hlast, hsl]
      · rw [List.flatten_cons, hflat, if_neg hk, if_neg (by omega)]
        have : (i + 1) * c = i * c + c := by ring
        rw [this, ← List.drop_drop, List.take_append_drop]


theorem chunkBounds_in_range (w : Nat) (hw : 1 ≤ w) (n g c i : Nat)
    (hn : (n : Int) < 2 ^ (w - 1)) (hg1 : 1 ≤ g) (hg : g ≤ n) (hc : g * c ≤ n) (hi : i < g) :
    0 ≤ (chunkBounds w (n : Int) (g : Int) (c : Int) (i : Int)).1 ∧
    (chunkBounds w (n : Int) (g : Int) (c : Int) (i : Int)).1
      ≤ (chunkBounds w (n : Int) (g : Int) (c : Int) (i : Int)).2 ∧
    (chunkBounds w (n : Int) (g : Int) (c : Int) (i : Int)).2 ≤ (n : Int) := by
  obtain ⟨hb, hle⟩ := chunkBounds_small w hw n g c i hn hg1 hg hc hi
  rw [hb]
  generalize i * c = s at hle
  by_cases hlast : i + 1 = g
  · simp only [if_pos hlast]
    omega
  · simp only [if_neg hlast]
    omega

theorem width_pos_of_fits (w n : Nat) (h1 : 1 ≤ n) (h2 : n < 2 ^ (w - 1)) : 1 ≤ w := by
  by_contra hw
  have : w = 0 := by omega
  subst this
  simp at h2
  omega

/-- When the configured worker count fits a non-negative `int`, the loop hands out
as many chunks as the smaller of the worker count and the file count, and the
chunks, in loop order, concatenate to the listing. -/
theorem partitionFiles_small {α : Type} (w : Nat) (files : List α) (maxThreads : Nat)
    (h1 : 1 ≤ files.length) (h2 : files.length < 2 ^ (w - 1))
    (h3 : 1 ≤ maxThreads) (h4 : maxThreads < 2 ^ (w - 1)) :
    ∃ chunks : List (List α), partitionFiles w files maxThreads = .ok chunks ∧
      chunks.length = min maxThreads files.length ∧ chunks.flatten = files := by
  have hw := width_pos_of_fits w _ h1 h2
  have hn : (files.length : Int) < 2 ^ (w - 1) := by exact_mod_cast h2
  have hmt : (maxThreads : Int) < 2 ^ (w - 1) := by exact_mod_cast h4
  have hg1 : 1 ≤ min maxThreads files.length := by omega
  have hg : min maxThreads files.length ≤ files.length := by omega
  have hgi : toInt w ((min maxThreads files.length : Nat) : Int)
      = ((min maxThreads files.length : Nat) : Int) :=
    toInt_eq_self w hw _ (by have := two_pow_pos_int (w - 1); omega) (by omega)
  obtain ⟨chunks, hs, hl, hf⟩ := spawnLoop_small w hw files (min maxThreads files.length)
    (files.length / min maxThreads files.length) hn hg1 hg (Nat.mul_div_le _ _)
    (min maxThreads files.length) 0 (by omega)
  refine ⟨chunks, ?_, hl, ?_⟩
  · unfold partitionFiles
    simp only [numGoroutines_small w hw _ _ hn hmt, hgi, chunkSize_small w hw _ _ hn hg]
    rw [if_neg (by omega), Int.toNat_ofNat]
    exact hs
  · rw [hf, if_neg (by omega)]
    simp

/-- When the configured worker count does not fit a non-negative `int`,
`int(numGoroutines)` is negative and the loop hands out no chunk. -/
theorem partitionFiles_large {α : Type} (w : Nat) (files : List α) (maxThreads : Nat)
    (hw : 1 ≤ w) (h3 : 2 ^ (w - 1) ≤ maxThreads) (h4 : maxThreads < 2 ^ w) :
    partitionFiles w files maxThreads = .ok [] := by
  have h3i : (2 : Int) ^ (w - 1) ≤ maxThreads := by exact_mod_cast h3
  have h4i : (maxThreads : Int) < 2 ^ w := by exact_mod_cast h4
  obtain ⟨hng, hneg⟩ := numGoroutines_large w hw files.length maxThreads h3i h4i
  unfold partitionFiles
  simp only [hng]
  rw [if_neg (by omega)]
  have : (toInt w (maxThreads : Int)).toNat = 0 := by omega
  rw [this]
  rfl

theorem toInt_numGoroutines_cases (w : Nat) (n maxThreads : Nat)
    (h1 : 1 ≤ n) (h2 : n < 2 ^ (w - 1)) (h3 : 1 ≤ maxThreads) (h4 : maxThreads < 2 ^ w) :
    (maxThreads < 2 ^ (w - 1) ∧
      toInt w (numGoroutines w (n : Int) (maxThreads : Int)) = ((min maxThreads n : Nat) : Int)) ∨
    (2 ^ (w - 1) ≤ maxThreads ∧
      toInt w (numGoroutines w (n : Int) (maxThreads : Int)) < 0) := by
  have hw := width_pos_of_fits w _ h1 h2
  have hn : (n : Int) < 2 ^ (w - 1) := by exact_mod_cast h2
  by_cases hsmall : maxThreads < 2 ^ (w - 1)
  · left
    have hmt : (maxThreads : Int) < 2 ^ (w - 1) := by exact_mod_cast hsmall
    refine ⟨hsmall, ?_⟩
    rw [numGoroutines_small w hw _ _ hn hmt]
    exact toInt_eq_self w hw _ (by have := two_pow_pos_int (w - 1); omega) (by omega)
  · right
    have h3i : (2 : Int) ^ (w - 1) ≤ maxThreads := by exact_mod_cast (not_lt.mp hsmall)
    have h4i : (maxThreads : Int) < 2 ^ w := by exact_mod_cast h4
    obtain ⟨hng, hneg⟩ := numGoroutines_large w hw n maxThreads h3i h4i
    refine ⟨not_lt.mp hsmall, ?_⟩
    rw [hng]
    exact hneg

theorem loopBounds_in_range (w : Nat) (n maxThreads : Nat) (i : Int)
    (h1 : 1 ≤ n) (h2 : n < 2 ^ (w - 1)) (h3 : 1 ≤ maxThreads) (h4 : maxThreads < 2 ^ w)
    (hi0 : 0 ≤ i) (hi : i < toInt w (numGoroutines w (n : Int) (maxThreads : Int))) :
    0 ≤ (loopBounds w (n : Int) (maxThreads : Int) i).1 ∧
    (loopBounds w (n : Int) (maxThreads : Int) i).1
      ≤ (loopBounds w (n : Int) (maxThreads : Int) i).2 ∧
    (loopBounds w (n : Int) (maxThreads : Int) i).2 ≤ (n : Int) := by
  have hw := width_pos_of_fits w _ h1 h2
  have hn : (n : Int) < 2 ^ (w - 1) := by exact_mod_cast h2
  rcases toInt_numGoroutines_cases w n maxThreads h1 h2 h3 h4 with ⟨hsmall, hg⟩ | ⟨_, hneg⟩
  · have hmt : (maxThreads : Int) < 2 ^ (w - 1) := by exact_mod_cast hsmall
    have hg1 : 1 ≤ min maxThreads n := by omega
    have hgn : min maxThreads n ≤ n := by omega
    rw [hg] at hi
    obtain ⟨j, rfl⟩ := Int.eq_ofNat_of_zero_le hi0
    have hj : j < min maxThreads n := by exact_mod_cast hi
    unfold loopBounds
    rw [numGoroutines_small w hw _ _ hn hmt, chunkSize_small w hw _ _ hn hgn]
    exact chunkBounds_in_range w hw n (min maxThreads n) (n / min maxThreads n) j hn hg1 hgn
      (Nat.mul_div_le _ _) hj
  · omega

theorem partitionFiles_total {α : Type} (w : Nat) (files : List α) (maxThreads : Nat)
    (h1 : 1 ≤ files.length) (h2 : files.length < 2 ^ (w - 1))
    (h3 : 1 ≤ maxThreads) (h4 : maxThreads < 2 ^ w) :
    ∃ chunks : List (List α), partitionFiles w files maxThreads = .ok chunks := by
  by_cases hsmall : maxThreads < 2 ^ (w - 1)
  · obtain ⟨chunks, hc, _⟩ := partitionFiles_small w files maxThreads h1 h2 h3 hsmall
    exact ⟨chunks, hc⟩
  · exact ⟨[], partitionFiles_large w files maxThreads (width_pos_of_fits w _ h1 h2)
      (not_lt.mp hsmall) h4⟩

/-- C10. The partition loop of `Scan` cannot fault: for every listing of at least
one file (a length that fits an `int`) and every worker count from 1 up to the
largest `uint`, the divisor `int(numGoroutines)` is not zero, at every iteration
`i` of the loop the bounds of `files[start:end]` satisfy
`0 ≤ start ≤ end ≤ len(files)`, and the loop ends without a panic. -/
theorem partition_loop_safe {α : Type} (w : Nat) (files : List α) (maxThreads : Nat)
    (h1 : 1 ≤ files.length) (h2 : files.length < 2 ^ (w - 1))
    (h3 : 1 ≤ maxThreads) (h4 : maxThreads < 2 ^ w) :
    toInt w (numGoroutines w (files.length : Int) (maxThreads : Int)) ≠ 0 ∧
    (∀ i : Int, 0 ≤ i → i < toInt w (numGoroutines w (files.length : Int) (maxThreads : Int)) →
      0 ≤ (loopBounds w (files.length : Int) (maxThreads : Int) i).1 ∧
      (loopBounds w (files.length : Int) (maxThreads : Int) i).1
        ≤ (loopBounds w (files.length : Int) (maxThreads : Int) i).2 ∧
      (loopBounds w (files.length : Int) (maxThreads : Int) i).2 ≤ (files.length : Int)) ∧
    (∃ chunks : List (List α), partitionFiles w files maxThreads = .ok chunks) := by
  refine ⟨?_, ?_, partitionFiles_total w files maxThreads h1 h2 h3 h4⟩
  · rcases toInt_numGoroutines_cases w files.length maxThreads h1 h2 h3 h4 with
      ⟨_, hg⟩ | ⟨_, hneg⟩
    · rw [hg]
      omega
    · omega
  · intro i hi0 hi
    exact loopBounds_in_range w files.length maxThreads i h1 h2 h3 h4 hi0 hi

/-! ## Serial orders of the workers' calls -/

theorem flatten_perm_of_get {α : Type} (ws : List (List α)) (k : Nat) (c : α) (rest : List α)
    (h : ws.get? k = some (c :: rest)) :
    ws.flatten.Perm (c :: (ws.set k rest).flatten) := by
  induction ws generalizing k with
  | nil => simp at h
  | cons w ws ih =>
    cases k with
    | zero =>
      simp only [List.get?_cons_zero, Option.some.injEq] at h
      subst h
      simp
    | succ k =>
      simp only [List.get?_cons_succ] at h
      simp only [List.set_cons_succ, List.flatten_cons]
      have := ih k h
      exact (List.Perm.append_left w this).trans List.perm_middle

theorem interleave_perm {α : Type} (sched : List Nat) (ws : List (List α)) :
    (interleave sched ws).Perm ws.flatten := by
  induction sched generalizing ws with
  | nil => exact List.Perm.refl _
  | cons k sched ih =>
    unfold interleave
    split
    · rename_i c rest hk
      exact ((ih _).cons c).trans (flatten_perm_of_get ws k c rest hk).symm
    · exact ih ws

/-- Every serial order of the workers' calls is the one some schedule gives. -/
theorem interleave_complete {α : Type} (ws : List (List α)) (l : List α)
    (h : SerialOrder ws l) : ∃ sched : List Nat, interleave sched ws = l := by
  induction h with
  | done ws hall =>
    refine ⟨[], ?_⟩
    simp only [interleave]
    rw [List.flatten_eq_nil_iff]
    exact hall
  | step ws k c rest l hk _ ih =>
    obtain ⟨sched, hs⟩ := ih
    refine ⟨k :: sched, ?_⟩
    simp only [interleave, hk, hs]

theorem scanChunk_flatten (env : Env) (s : Scanner) (chunks : List (List FileInfo)) :
    (chunks.map (Scanner.scanChunk env s)).flatten = Scanner.scanChunk env s chunks.flatten := by
  induction chunks with
  | nil => simp [Scanner.scanChunk]
  | cons c rest ih => simp [scanChunk_append, ih]

/-! ## `Scan` -/

theorem Scan_listing_error (env : Env) (s : Scanner) (sched : List Nat)
    (rangeOrder : GoMap → List (Hash × List File)) (e : GoError)
    (h : env.ReadDir s.directoryPath = .error e) :
    Scanner.Scan env s sched rangeOrder
      = .ok { launched := [], calls := [], scanMap := NewScanMap, duplicates := [],
              err := some e } := by
  simp [Scanner.Scan, h]

theorem Scan_listing_empty (env : Env) (s : Scanner) (sched : List Nat)
    (rangeOrder : GoMap → List (Hash × List File))
    (h : env.ReadDir s.directoryPath = .ok []) :
    Scanner.Scan env s sched rangeOrder
      = .ok { launched := [], calls := [], scanMap := NewScanMap, duplicates := [],
              err := none } := by
  simp [Scanner.Scan, h]

theorem Scan_listing_ok (env : Env) (s : Scanner) (sched : List Nat)
    (rangeOrder : GoMap → List (Hash × List File)) (files : List FileInfo)
    (chunks : List (List FileInfo))
    (h : env.ReadDir s.directoryPath = .ok files) (hn : 1 ≤ files.length)
    (hp : partitionFiles env.intSize files s.maxThreads = .ok chunks) :
    Scanner.Scan env s sched rangeOrder
      = .ok { launched := chunks,
              calls := interleave sched (chunks.map (Scanner.scanChunk env s)),
              scanMap := NewScanMap.applyCalls
                (interleave sched (chunks.map (Scanner.scanChunk env s))),
              duplicates := reduceLoop (rangeOrder (NewScanMap.applyCalls
                (interleave sched (chunks.map (Scanner.scanChunk env s)))).GetMap) [],
              err := none } := by
  have : ¬ ((files.length : Int) ≤ 0) := by omega
  simp [Scanner.Scan, h, this, hp]

/-- C6. `Scan` returns a non-nil error if and only if listing the directory fails:
for every worker count from 1 up to the largest `uint`, every serial order of the
workers and every iteration order of the reduction, `Scan` returns; when the
listing fails it returns that error with no groups, having launched no worker and
recorded nothing; when the listing succeeds (empty or not, whatever happens to
the single files) the returned error is nil. -/
theorem Scan_error_iff_listing_fails (env : Env) (s : Scanner) (sched : List Nat)
    (rangeOrder : GoMap → List (Hash × List File))
    (h3 : 1 ≤ s.maxThreads) (h4 : s.maxThreads < 2 ^ env.intSize)
    (h2 : ∀ files, env.ReadDir s.directoryPath = .ok files →
      files.length < 2 ^ (env.intSize - 1)) :
    ∃ run : ScanRun, Scanner.Scan env s sched rangeOrder = .ok run ∧
      (run.err ≠ none ↔ ∃ e, env.ReadDir s.directoryPath = .error e) ∧
      (∀ e, env.ReadDir s.directoryPath = .error e →
        run.err = some e ∧ run.duplicates = [] ∧ run.launched = [] ∧ run.calls = [] ∧
          run.scanMap = NewScanMap) ∧
      (∀ files, env.ReadDir s.directoryPath = .ok files → run.err = none) := by
  cases hl : env.ReadDir s.directoryPath with
  | error e =>
    refine ⟨_, Scan_listing_error env s sched rangeOrder e hl, ?_, ?_, ?_⟩
    · simp
    · intro e2 he2
      cases he2
      exact ⟨rfl, rfl, rfl, rfl, rfl⟩
    · intro files hf
      cases hf
  | ok files =>
    by_cases hn : 1 ≤ files.length
    · obtain ⟨_, _, chunks, hp⟩ :=
        partition_loop_safe env.intSize files s.maxThreads hn (h2 files hl) h3 h4
      refine ⟨_, Scan_listing_ok env s sched rangeOrder files chunks hl hn hp, ?_, ?_, ?_⟩
      · simp
      · intro e he
        cases he
      · intro _ _
        rfl
    · have h0 : files = [] := List.length_eq_zero.mp (by omega)
      subst h0
      refine ⟨_, Scan_listing_empty env s sched rangeOrder hl, ?_, ?_, ?_⟩
      · simp
      · intro e he
        cases he
      · intro _ _
        rfl

/-! ## The groups returned by `Scan` when every regular file is digested -/

theorem scanChunk_eq_map (env : Env) (s : Scanner) (dig : FileInfo → Hash)
    (files : List FileInfo)
    (hd : ∀ file ∈ files, file.IsDir = false → Realises env s file (.digest (dig file))) :
    Scanner.scanChunk env s files
      = (files.filter (fun f => !f.IsDir)).map (fun f => (dig f, f.Name)) := by
  induction files with
  | nil => simp [Scanner.scanChunk]
  | cons file rest ih =>
    have ihr := ih (fun f hf => hd f (List.mem_cons_of_mem _ hf))
    cases hdir : file.IsDir with
    | true =>
      have hr : Realises env s file .isDirectory := hdir
      rw [scanChunk_cons_of_realises env s file _ rest hr, ihr]
      simp [recorded, hdir]
    | false =>
      have hr := hd file (List.mem_cons_self _ _) hdir
      rw [scanChunk_cons_of_realises env s file _ rest hr, ihr]
      simp [recorded, hdir]

theorem mem_filesOf (calls : List (Hash × File)) (k : Hash) (name : File) :
    name ∈ filesOf calls k ↔ (k, name) ∈ calls := by
  simp only [filesOf, List.mem_map, List.mem_filter, decide_eq_true_eq]
  constructor
  · rintro ⟨⟨k2, n2⟩, ⟨hm, hk⟩, hn⟩
    simp only at hk hn
    subst hk hn
    exact hm
  · intro h
    exact ⟨(k, name), ⟨h, rfl⟩, rfl⟩

theorem filesOf_nodup (calls : List (Hash × File)) (k : Hash)
    (h : (calls.map Prod.snd).Nodup) : (filesOf calls k).Nodup := by
  unfold filesOf
  exact List.Nodup.sublist ((List.filter_sublist _).map _) h

theorem two_le_length_of_mem {α : Type} (l : List α) (x y : α) (hx : x ∈ l) (hy : y ∈ l)
    (hne : x ≠ y) : 2 ≤ l.length := by
  match l, hx, hy with
  | [], hx, _ => cases hx
  | [a], hx, hy =>
    simp only [List.mem_singleton] at hx hy
    exact absurd (hx.trans hy.symm) hne
  | _ :: _ :: _, _, _ => simp

theorem exists_other_mem {α : Type} (l : List α) (x : α) (hl : 2 ≤ l.length)
    (hnd : l.Nodup) : ∃ y ∈ l, y ≠ x := by
  match l, hl, hnd with
  | a :: b :: _, _, hnd =>
    have hab : a ≠ b := by
      intro h
      simp [h] at hnd
    by_cases ha : a = x
    · exact ⟨b, by simp, fun hb => hab (ha.trans hb.symm)⟩
    · exact ⟨a, by simp, ha⟩

theorem mem_duplicates_iff (calls : List (Hash × File))
    (rangeOrder : GoMap → List (Hash × List File)) (hro : IsRangeOrder rangeOrder)
    (g : Duplicate) :
    g ∈ reduceLoop (rangeOrder (NewScanMap.applyCalls calls).GetMap) []
      ↔ ∃ k : Hash, g.Files = filesOf calls k ∧ 2 ≤ (filesOf calls k).length := by
  rw [reduceLoop_eq, List.nil_append, (groupsOf_perm (hro _)).mem_iff]
  simp only [groupsOf, ScanMap.GetMap, List.mem_map, List.mem_filter, decide_eq_true_eq]
  constructor
  · rintro ⟨⟨k, fs⟩, ⟨hm, hl⟩, rfl⟩
    rw [ScanMap.new_mem] at hm
    simp only at hl
    exact ⟨k, hm.1, hm.1 ▸ hl⟩
  · rintro ⟨k, hk, hl⟩
    refine ⟨(k, filesOf calls k), ⟨?_, hl⟩, ?_⟩
    · rw [ScanMap.new_mem]
      refine ⟨rfl, ?_⟩
      intro h0
      rw [h0] at hl
      simp at hl
    · cases g
      simp only at hk
      simp [hk]


theorem groups_of_digested_calls (calls : List (Hash × File)) (files : List FileInfo)
    (dig : FileInfo → Hash) (rangeOrder : GoMap → List (Hash × List File))
    (hro : IsRangeOrder rangeOrder) (hnames : (files.map FileInfo.Name).Nodup)
    (hcalls : calls.Perm ((files.filter (fun f => !f.IsDir)).map (fun f => (dig f, f.Name)))) :
    (∀ a ∈ files, ∀ b ∈ files, a.IsDir = false → b.IsDir = false → a ≠ b →
      ((∃ g ∈ reduceLoop (rangeOrder (NewScanMap.applyCalls calls).GetMap) [],
          a.Name ∈ g.Files ∧ b.Name ∈ g.Files) ↔ dig a = dig b)) ∧
    (∀ a ∈ files, a.IsDir = false →
      ((∃ g ∈ reduceLoop (rangeOrder (NewScanMap.applyCalls calls).GetMap) [],
          a.Name ∈ g.Files) ↔ ∃ b ∈ files, b.IsDir = false ∧ b ≠ a ∧ dig b = dig a)) := by
  have hinj : ∀ x ∈ files, ∀ y ∈ files, x.Name = y.Name → x = y :=
    fun x hx y hy hxy => List.inj_on_of_nodup_map hnames hx hy hxy
  have hmem : ∀ (k : Hash) (nm : File),
      (k, nm) ∈ calls ↔ ∃ f ∈ files, f.IsDir = false ∧ dig f = k ∧ f.Name = nm := by
    intro k nm
    rw [hcalls.mem_iff]
    simp only [List.mem_map, List.mem_filter, Bool.not_eq_true', Prod.mk.injEq]
    constructor
    · rintro ⟨f, ⟨hf, hd⟩, hk, hn⟩
      exact ⟨f, hf, hd, hk, hn⟩
    · rintro ⟨f, hf, hd, hk, hn⟩
      exact ⟨f, ⟨hf, hd⟩, hk, hn⟩
  have hown : ∀ a ∈ files, a.IsDir = false → ∀ k : Hash,
      (a.Name ∈ filesOf calls k ↔ dig a = k) := by
    intro a ha hda k
    rw [mem_filesOf, hmem]
    constructor
    · rintro ⟨f, hf, _, hk, hn⟩
      rw [← hinj f hf a ha hn]
      exact hk
    · intro hk
      exact ⟨a, ha, hda, hk, rfl⟩
  have hnd : ∀ k : Hash, (filesOf calls k).Nodup := by
    intro k
    apply filesOf_nodup
    have h1 : (calls.map Prod.snd).Perm
        ((files.filter (fun f => !f.IsDir)).map FileInfo.Name) := by
      have := hcalls.map Prod.snd
      simpa [List.map_map, Function.comp_def] using this
    rw [h1.nodup_iff]
    exact List.Nodup.sublist ((List.filter_sublist _).map _) hnames
  have hpair : ∀ a ∈ files, ∀ b ∈ files, a.IsDir = false → b.IsDir = false → a ≠ b →
      dig a = dig b →
      ∃ g ∈ reduceLoop (rangeOrder (NewScanMap.applyCalls calls).GetMap) [],
          a.Name ∈ g.Files ∧ b.Name ∈ g.Files := by
    intro a ha b hb hda hdb hab hdig
    have h1 : a.Name ∈ filesOf calls (dig a) := (hown a ha hda _).mpr rfl
    have h2 : b.Name ∈ filesOf calls (dig a) := (hown b hb hdb _).mpr hdig.symm
    have hne : a.Name ≠ b.Name := fun h => hab (hinj a ha b hb h)
    refine ⟨Duplicate.mk (filesOf calls (dig a)), ?_, h1, h2⟩
    rw [mem_duplicates_iff calls rangeOrder hro]
    exact ⟨dig a, rfl, two_le_length_of_mem _ _ _ h1 h2 hne⟩
  constructor
  · intro a ha b hb hda hdb hab
    constructor
    · rintro ⟨g, hg, hga, hgb⟩
      rw [mem_duplicates_iff calls rangeOrder hro] at hg
      obtain ⟨k, hk, _⟩ := hg
      rw [hk] at hga hgb
      rw [(hown a ha hda k).mp hga, (hown b hb hdb k).mp hgb]
    · exact hpair a ha b hb hda hdb hab
  · intro a ha hda
    constructor
    · rintro ⟨g, hg, hga⟩
      rw [mem_duplicates_iff calls rangeOrder hro] at hg
      obtain ⟨k, hk, hl⟩ := hg
      rw [hk] at hga
      have hka : dig a = k := (hown a ha hda k).mp hga
      obtain ⟨y, hy, hya⟩ := exists_other_mem (filesOf calls k) a.Name hl (hnd k)
      rw [mem_filesOf, hmem] at hy
      obtain ⟨f, hf, hdf, hkf, hnf⟩ := hy
      refine ⟨f, hf, hdf, ?_, hkf.trans hka.symm⟩
      intro hfa
      rw [hfa] at hnf
      exact hya hnf.symm
    · rintro ⟨b, hb, hdb, hba, hdig⟩
      obtain ⟨g, hg, hga, _⟩ := hpair a ha b hb hda hdb (Ne.symm hba) hdig.symm
      exact ⟨g, hg, hga⟩

/-- When the configured worker count fits a non-negative `int`, `Scan` groups
the regular files by digest: for every listing with distinct names, every serial
order of the `Set` calls and every iteration order of the reduction, if every
regular file is opened and digested, two regular files are in a common returned
group exactly when `hashFile` gave them the same digest, and a regular file is
in some group exactly when another regular file shares its digest. -/
theorem Scan_groups_of_fits (env : Env) (s : Scanner) (sched : List Nat)
    (rangeOrder : GoMap → List (Hash × List File)) (files : List FileInfo)
    (dig : FileInfo → Hash)
    (hl : env.ReadDir s.directoryPath = .ok files)
    (hnames : (files.map FileInfo.Name).Nodup)
    (h2 : files.length < 2 ^ (env.intSize - 1))
    (h3 : 1 ≤ s.maxThreads) (h4 : s.maxThreads < 2 ^ (env.intSize - 1))
    (hro : IsRangeOrder rangeOrder)
    (hd : ∀ file ∈ files, file.IsDir = false → Realises env s file (.digest (dig file))) :
    ∃ run : ScanRun, Scanner.Scan env s sched rangeOrder = .ok run ∧ run.err = none ∧
      (∀ a ∈ files, ∀ b ∈ files, a.IsDir = false → b.IsDir = false → a ≠ b →
        ((∃ g ∈ run.duplicates, a.Name ∈ g.Files ∧ b.Name ∈ g.Files) ↔ dig a = dig b)) ∧
      (∀ a ∈ files, a.IsDir = false →
        ((∃ g ∈ run.duplicates, a.Name ∈ g.Files)
          ↔ ∃ b ∈ files, b.IsDir = false ∧ b ≠ a ∧ dig b = dig a)) := by
  by_cases hn : 1 ≤ files.length
  · obtain ⟨chunks, hp, _, hflat⟩ :=
      partitionFiles_small env.intSize files s.maxThreads hn h2 h3 h4
    have hcalls : (interleave sched (chunks.map (Scanner.scanChunk env s))).Perm
        ((files.filter (fun f => !f.IsDir)).map (fun f => (dig f, f.Name))) := by
      have := interleave_perm sched (chunks.map (Scanner.scanChunk env s))
      rwa [scanChunk_flatten, hflat, scanChunk_eq_map env s dig files hd] at this
    obtain ⟨hA, hB⟩ := groups_of_digested_calls _ files dig rangeOrder hro hnames hcalls
    exact ⟨_, Scan_listing_ok env s sched rangeOrder files chunks hl hn hp, rfl, hA, hB⟩
  · have h0 : files = [] := List.length_eq_zero.mp (by omega)
    subst h0
    refine ⟨_, Scan_listing_empty env s sched rangeOrder hl, rfl, ?_, ?_⟩
    · intro a ha
      cases ha
    · intro a ha
      cases ha

/-! ## Worked examples -/

theorem concatHasher_lawful : concatHasher.Lawful :=
  { write_ok := fun _ _ => rfl
    write_append := fun s a b => List.append_assoc s a b }

theorem reverse_isRangeOrder : IsRangeOrder List.reverse :=
  fun m => List.reverse_perm m

theorem id_isRangeOrder : IsRangeOrder (fun m => m) :=
  fun m => List.Perm.refl m

/-- C1, at the worker count `2 ^ 64 - 1` on a 64-bit machine with three listed
files: `int(numGoroutines)` is `-1`, the loop makes no iteration and hands out no
chunk, so the chunks do not cover the listing. -/
theorem partition_skips_files_at_huge_maxThreads :
    toInt 64 (numGoroutines 64 (threeFiles.length : Int) ((2 ^ 64 - 1 : Nat) : Int)) = -1 ∧
    partitionFiles 64 threeFiles (2 ^ 64 - 1) = .ok [] ∧
    ¬ ∃ chunks : List (List FileInfo),
      partitionFiles 64 threeFiles (2 ^ 64 - 1) = .ok chunks ∧ chunks.flatten = threeFiles := by
  have h : partitionFiles 64 threeFiles (2 ^ 64 - 1) = .ok [] := by rfl
  refine ⟨by rfl, h, ?_⟩
  rintro ⟨chunks, hc, hf⟩
  rw [h] at hc
  cases hc
  exact absurd hf (by decide)

/-- C3, at the worker count `2 ^ 64 - 1` on a 64-bit machine with three listed
files: `Scan` launches 0 workers, whereas the smaller of the configured worker
count and the file count is 3. -/
theorem no_worker_at_huge_maxThreads :
    ∃ run : ScanRun,
      Scanner.Scan (sampleEnv 64 threeFiles) { directoryPath := "dir", maxThreads := 2 ^ 64 - 1 }
        [] (fun m => m) = .ok run ∧
      run.launched.length = 0 ∧
      min (2 ^ 64 - 1) threeFiles.length = 3 ∧
      run.launched.length ≠ min (2 ^ 64 - 1) threeFiles.length :=
  ⟨_, rfl, rfl, by decide, by decide⟩

/-- C2, at the worker count `2 ^ 64 - 1` on a 64-bit machine, for the directory
`a.txt` = "hello", `b.txt` = "hello", `c.txt` = "world" whose three files are all
opened and digested by `hashFile`, the first two with the same digest: `Scan`
returns no error and no group, so `a.txt` and `b.txt` are in no common group. -/
theorem no_group_at_huge_maxThreads :
    (sampleEnv 64 threeFiles).ReadDir "dir" = .ok threeFiles ∧
    Realises (sampleEnv 64 threeFiles) { directoryPath := "dir", maxThreads := 2 ^ 64 - 1 }
      { Name := "a.txt", IsDir := false } (.digest helloBytes) ∧
    Realises (sampleEnv 64 threeFiles) { directoryPath := "dir", maxThreads := 2 ^ 64 - 1 }
      { Name := "b.txt", IsDir := false } (.digest helloBytes) ∧
    Realises (sampleEnv 64 threeFiles) { directoryPath := "dir", maxThreads := 2 ^ 64 - 1 }
      { Name := "c.txt", IsDir := false } (.digest worldBytes) ∧
    ∃ run : ScanRun,
      Scanner.Scan (sampleEnv 64 threeFiles) { directoryPath := "dir", maxThreads := 2 ^ 64 - 1 }
        [] (fun m => m) = .ok run ∧
      run.err = none ∧ run.calls = [] ∧ run.duplicates = [] ∧
      ¬ ∃ g ∈ run.duplicates, "a.txt" ∈ g.Files ∧ "b.txt" ∈ g.Files :=
  ⟨rfl, ⟨rfl, helloWhole, rfl, rfl⟩, ⟨rfl, helloSplit, rfl, rfl⟩, ⟨rfl, worldWhole, rfl, rfl⟩,
    _, rfl, rfl, rfl, rfl, by rintro ⟨g, hg, _⟩; cases hg⟩

/-- The scenario `a.txt` = "hello", `b.txt` = "hello", `c.txt` = "world" with two
workers: one group, holding `a.txt` and `b.txt`. -/
theorem Scan_groups_of_fits_example :
    ∃ run : ScanRun,
      Scanner.Scan (sampleEnv 64 threeFiles) { directoryPath := "dir", maxThreads := 2 }
        [1, 0] List.reverse = .ok run ∧
      run.launched = [[{ Name := "a.txt", IsDir := false }],
        [{ Name := "b.txt", IsDir := false }, { Name := "c.txt", IsDir := false }]] ∧
      run.calls = [(helloBytes, "b.txt"), (helloBytes, "a.txt"), (worldBytes, "c.txt")] ∧
      run.duplicates = [{ Files := ["b.txt", "a.txt"] }] ∧ run.err = none :=
  ⟨_, rfl, rfl, rfl, rfl, rfl⟩

theorem Scan_reduce_exact_witness :
    (GoMap.keys [(helloBytes, ["a.txt", "b.txt"]), (worldBytes, ["c.txt"])]).Nodup ∧
    IsRangeOrder List.reverse ∧
    (reduceLoop (List.reverse [(helloBytes, ["a.txt", "b.txt"]), (worldBytes, ["c.txt"])]) []).Perm
      ((List.filter (fun e => decide (2 ≤ e.2.length))
        [(helloBytes, ["a.txt", "b.txt"]), (worldBytes, ["c.txt"])]).map
          (fun e => Duplicate.mk e.2)) :=
  ⟨by decide, reverse_isRangeOrder,
    (Scan_reduce_exact [(helloBytes, ["a.txt", "b.txt"]), (worldBytes, ["c.txt"])] List.reverse
      (by decide) reverse_isRangeOrder).2.1⟩

theorem Set_order_irrelevant_witness :
    List.Perm [(helloBytes, "a.txt"), (worldBytes, "c.txt"), (helloBytes, "b.txt")]
      [(helloBytes, "b.txt"), (worldBytes, "c.txt"), (helloBytes, "a.txt")] ∧
    SameGroups
      (reduceLoop ((fun m => m) (NewScanMap.applyCalls
        [(helloBytes, "a.txt"), (worldBytes, "c.txt"), (helloBytes, "b.txt")]).GetMap) [])
      (reduceLoop (List.reverse (NewScanMap.applyCalls
        [(helloBytes, "b.txt"), (worldBytes, "c.txt"), (helloBytes, "a.txt")]).GetMap) []) :=
  ⟨by decide,
    (Set_order_irrelevant [(helloBytes, "a.txt"), (worldBytes, "c.txt"), (helloBytes, "b.txt")]
      [(helloBytes, "b.txt"), (worldBytes, "c.txt"), (helloBytes, "a.txt")]
      (fun m => m) List.reverse (by decide) id_isRangeOrder reverse_isRangeOrder).2.2⟩

theorem hashFile_chunking_witness :
    concatHasher.Lawful ∧
    hashFile concatHasher helloSplit = (concatHasher.digest helloBytes, none) ∧
    hashFile concatHasher helloWhole = hashFile concatHasher helloSplit :=
  ⟨concatHasher_lawful,
    (hashFile_chunking concatHasher [{ data := [104, 101], err := none, fits := by decide }]
      { data := [108, 108, 111], err := some .EOF, fits := by decide } []
      concatHasher_lawful (by simp) rfl).1,
    (hashFile_chunking concatHasher [{ data := [104, 101], err := none, fits := by decide }]
      { data := [108, 108, 111], err := some .EOF, fits := by decide } []
      concatHasher_lawful (by simp) rfl).2
      [{ data := helloBytes, err := none, fits := by decide }]
      { data := [], err := some .EOF, fits := by decide } [] (by simp) rfl rfl⟩

theorem scanChunk_records_witness :
    List.Forall₂
      (Realises (sampleEnv 64 sixEntries) { directoryPath := "dir", maxThreads := 4 })
      sixEntries
      [.isDirectory, .openFails, .digest helloBytes, .digestFails, .digest helloBytes,
        .digest worldBytes] ∧
    Scanner.scanChunk (sampleEnv 64 sixEntries) { directoryPath := "dir", maxThreads := 4 }
      sixEntries
      = [(helloBytes, "a.txt"), (helloBytes, "b.txt"), (worldBytes, "c.txt")] :=
  have hreal : List.Forall₂
      (Realises (sampleEnv 64 sixEntries) { directoryPath := "dir", maxThreads := 4 })
      sixEntries
      [.isDirectory, .openFails, .digest helloBytes, .digestFails, .digest helloBytes,
        .digest worldBytes] :=
    .cons rfl (.cons ⟨rfl, _, rfl⟩ (.cons ⟨rfl, helloWhole, rfl, rfl⟩
      (.cons ⟨rfl, brokenReader, _, rfl, rfl⟩ (.cons ⟨rfl, helloSplit, rfl, rfl⟩
        (.cons ⟨rfl, worldWhole, rfl, rfl⟩ .nil)))))
  ⟨hreal, (scanChunk_records (sampleEnv 64 sixEntries)
    { directoryPath := "dir", maxThreads := 4 } sixEntries _ hreal).1⟩

theorem Scan_error_iff_listing_fails_witness :
    ∃ run : ScanRun,
      Scanner.Scan (sampleEnv 64 sixEntries) { directoryPath := "dir", maxThreads := 4 }
        [1, 0, 2] List.reverse = .ok run ∧
      (run.err ≠ none ↔ ∃ e, (sampleEnv 64 sixEntries).ReadDir "dir" = .error e) ∧
      (∀ e, (sampleEnv 64 sixEntries).ReadDir "dir" = .error e →
        run.err = some e ∧ run.duplicates = [] ∧ run.launched = [] ∧ run.calls = [] ∧
          run.scanMap = NewScanMap) ∧
      (∀ files, (sampleEnv 64 sixEntries).ReadDir "dir" = .ok files → run.err = none) :=
  Scan_error_iff_listing_fails (sampleEnv 64 sixEntries)
    { directoryPath := "dir", maxThreads := 4 } [1, 0, 2] List.reverse
    (by decide) (by decide)
    (by
      intro files h
      have h2 : (Except.ok sixEntries : Except GoError (List FileInfo)) = .ok files := h
      cases h2
      decide)

theorem partition_loop_safe_witness :
    (1 ≤ sixEntries.length ∧ sixEntries.length < 2 ^ (64 - 1) ∧ 1 ≤ 4 ∧ 4 < 2 ^ 64) ∧
    ∃ chunks : List (List FileInfo), partitionFiles 64 sixEntries 4 = .ok chunks :=
  ⟨⟨by decide, by decide, by decide, by decide⟩,
    (partition_loop_safe 64 sixEntries 4 (by decide) (by decide) (by decide) (by decide)).2.2⟩

end DupeFinder
